import Mathlib

/-!
Shallow embedding of the hash-table core of kulics-works/go-collections
(`src/dict/hash_dict.go`) and of the hash-set adapter (`src/hash_set.go`),
together with theorems settling the frozen claims about the repository.

Modelling conventions:
* Go `int` is modelled as `Int`.  No arithmetic in the claims' scope comes
  near 64-bit overflow, so no wraparound is applied.
* Go slice indexing `a[i]` panics when `i` is out of range; it is modelled
  by `getI?` / `setI?` returning `none`.  Every fallible operation of the
  table returns an `Option`; `none` models a runtime panic (or, for the
  fueled loops, divergence of the corresponding unbounded Go loop, which
  cannot happen with the fuel bounds used here on states the claims reach).
* Go `%` and `/` on `int` truncate toward zero: `Int.tmod` / `Int.tdiv`.
* The `loadFactor` field is `float64(1.0)` in Go and is only used in the
  comparison `float64(newSize/bucketsSize) > loadFactor` where the left
  side is a `float64` conversion of a small integer quotient; such
  conversions are exact for magnitudes below 2^53, so the comparison is
  modelled exactly by the integer comparison `tdiv newSize bucketsSize > 1`
  with `loadFactor` stored as the integer `1`.
-/

set_option maxRecDepth 100000

namespace GoCollections

/-- Read `xs[i]` with a Go `int` index; `none` models the runtime panic on
an out-of-range index. -/
def getI? {α : Type} (xs : Array α) (i : Int) : Option α :=
  if h : 0 ≤ i ∧ i.toNat < xs.size then some (xs.get ⟨i.toNat, h.2⟩) else none

/-- Write `xs[i] = v` with a Go `int` index; `none` models the runtime panic
on an out-of-range index. -/
def setI? {α : Type} (xs : Array α) (i : Int) (v : α) : Option (Array α) :=
  if h : 0 ≤ i ∧ i.toNat < xs.size then some (xs.set ⟨i.toNat, h.2⟩ v) else none

/-- One slot of the Entry Store (`type entry[K any, V any] struct` in
`src/dict/hash_dict.go`). -/
structure Entry (K V : Type) where
  hash : Int
  key : K
  value : V
  next : Int
  alive : Bool
  deriving DecidableEq

/-- The Go zero value of `entry[K, V]`: zero hash, zero key/value, zero
`next`, `false` liveness. -/
instance {K V : Type} [Inhabited K] [Inhabited V] : Inhabited (Entry K V) :=
  ⟨{ hash := 0, key := default, value := default, next := 0, alive := false }⟩

/-- The table state (`type hashMap[K comparable, V any] struct` in
`src/dict/hash_dict.go`; `HashDict` is a one-field wrapper around a pointer
to it, so the wrapper is elided and methods act on this state directly). -/
structure hashMap (K V : Type) where
  buckets : Array Int
  entries : Array (Entry K V)
  appendCount : Int
  freeCount : Int
  freeSize : Int
  hasher : K → Int
  loadFactor : Int

variable {K V : Type} [DecidableEq K] [Inhabited K] [Inhabited V]

/-- `func NumberHasher[T Number](t T) int` at `T = Int`: the identity. -/
def NumberHasher (t : Int) : Int := t

/-- Loop body of `func bucketsSizeFor(size int) int`: starting from 16,
double while below `size`.  The Go loop is unbounded; the fuel used by
`bucketsSizeFor` below is proved sufficient, so the fueled function agrees
with the loop wherever the loop terminates. -/
def bucketsSizeForLoop (size : Int) : Nat → Int → Int
  | 0, acc => acc
  | f + 1, acc => if acc < size then bucketsSizeForLoop size f (acc * 2) else acc

/-- `func bucketsSizeFor(size int) int` from `src/dict/hash_dict.go`. -/
def bucketsSizeFor (size : Int) : Int :=
  bucketsSizeForLoop size (size.toNat + 1) 16

/-- Loop `for i := 0; i < len(a); i++ { a[i] = v }`, used by `MakeHashDict`
(filling buckets with `-1`) and by `Clear`. -/
def clearLoop {α : Type} (v : α) : Nat → Int → Array α → Option (Array α)
  | 0, _, xs => some xs
  | f + 1, i, xs =>
    if i < (xs.size : Int) then do
      let xs' ← setI? xs i v
      clearLoop v f (i + 1) xs'
    else some xs

/-- `func MakeHashDict[K comparable, V any](hasher func(data K) int, capacity int) HashDict[K, V]`.
`defaultElementsSize = 10`.  The buckets slice is allocated zeroed
(`make([]int, ...)`) and then filled with `-1` by an index loop; that loop
never goes out of range, so the `Option` is discharged with the zeroed
array as the (unreachable) fallback. -/
def MakeHashDict (hasher : K → Int) (capacity : Int) : hashMap K V :=
  let size := capacity
  let bucketsLen := (bucketsSizeFor size).toNat
  let buckets :=
    (clearLoop (-1 : Int) (bucketsLen + 1) 0 (Array.mkArray bucketsLen 0)).getD
      (Array.mkArray bucketsLen 0)
  let size := if size < 10 then (10 : Int) else size
  { buckets := buckets
    entries := Array.mkArray size.toNat default
    appendCount := 0
    freeCount := 0
    freeSize := 0
    hasher := hasher
    loadFactor := 1 }

/-- `func (a HashDict[K, V]) index(hash int) int`, i.e.
`hash % len(a.inner.buckets)` with Go's truncated `%`.  Go panics when the
divisor is zero; every constructed table has at least 16 buckets and no
operation shrinks the bucket array, and on a zero-sized bucket array the
subsequent `buckets[index]` access fails in this model anyway, so the
distinction is unobservable. -/
def index (s : hashMap K V) (hash : Int) : Int :=
  Int.tmod hash (s.buckets.size : Int)

/-- `func (a HashDict[K, V]) Size() int`:
`a.inner.appendCount - a.inner.freeSize + 1`. -/
def Size (s : hashMap K V) : Int :=
  s.appendCount - s.freeSize + 1

/-- `func (a HashDict[K, V]) IsEmpty() bool`: `a.Size() == 0`. -/
def IsEmpty (s : hashMap K V) : Bool :=
  Size s == 0

/-- Chain walk of `TryGet`:
`for i := a.inner.buckets[index]; i >= 0; i = a.inner.entries[i].next`. -/
def tryGetLoop (s : hashMap K V) (hash : Int) (key : K) : Nat → Int → Option (Option V)
  | 0, _ => none
  | f + 1, i =>
    if 0 ≤ i then do
      let item ← getI? s.entries i
      if item.hash = hash ∧ item.key = key then some (some item.value)
      else tryGetLoop s hash key f item.next
    else some none

/-- `func (a HashDict[K, V]) TryGet(key K) Option[V]`. -/
def TryGet (s : hashMap K V) (key : K) : Option (Option V) := do
  let hash := s.hasher key
  let idx := index s hash
  let start ← getI? s.buckets idx
  tryGetLoop s hash key (s.entries.size + 1) start

/-- `func (a HashDict[K, V]) Contains(key K) bool`:
`a.TryGet(key).IsSome()`. -/
def Contains (s : hashMap K V) (key : K) : Option Bool :=
  (TryGet s key).map Option.isSome

/-- Loop `for i, v := range a.inner.entries { if v.alive { ... } }` inside
`grow`, re-bucketing every live entry by `v.hash % newBucketsSize` and
pushing it on the head of its new chain. -/
def rehashLoop (newBucketsSize : Int) :
    List Nat → Array (Entry K V) → Array Int → Option (Array (Entry K V) × Array Int)
  | [], es, bs => some (es, bs)
  | i :: rest, es, bs => do
    let v ← getI? es (i : Int)
    if v.alive then do
      let bucket := Int.tmod v.hash newBucketsSize
      let head ← getI? bs bucket
      let es' ← setI? es (i : Int) { v with next := head }
      let bs' ← setI? bs bucket i
      rehashLoop newBucketsSize rest es' bs'
    else rehashLoop newBucketsSize rest es bs

/-- First half of `func (a HashDict[K, V]) grow(newSize int)`: double and
rehash the bucket array when
`float64(newSize/bucketsSize) > a.inner.loadFactor` (see the module
comment for the exactness of the integer reading of this comparison).
Go's `/` panics on a zero divisor. -/
def rehashIfNeeded (s : hashMap K V) (newSize : Int) : Option (hashMap K V) :=
  if (s.buckets.size : Int) = 0 then none
  else if Int.tdiv newSize (s.buckets.size : Int) > s.loadFactor then do
    let newBucketsSize := (s.buckets.size : Int) * 2
    let newBuckets := Array.mkArray newBucketsSize.toNat (-1 : Int)
    let (es, bs) ← rehashLoop newBucketsSize (List.range s.entries.size) s.entries newBuckets
    some { s with entries := es, buckets := bs }
  else some s

/-- `copy(newEntries, a.inner.entries)`: the prefix of `dst` up to
`src.size` is overwritten by `src`. -/
def copyInto {α : Type} (src dst : Array α) : Array α :=
  Array.ofFn (fun i : Fin dst.size =>
    if h : (i : Nat) < src.size then src.get ⟨i, h⟩ else dst.get i)

/-- Second half of `grow`: when `newSize > entriesSize` (the entry-array
length captured at the top of `grow`), allocate
`make([]entry[K, V], entriesSize+(entriesSize<<1))` and copy the existing
entries over. -/
def growEntriesIfNeeded (entriesSize : Nat) (s : hashMap K V) (newSize : Int) : hashMap K V :=
  if newSize > (entriesSize : Int) then
    { s with entries := copyInto s.entries (Array.mkArray (entriesSize + entriesSize * 2) default) }
  else s

/-- `func (a HashDict[K, V]) grow(newSize int)`. -/
def grow (s : hashMap K V) (newSize : Int) : Option (hashMap K V) := do
  let entriesSize := s.entries.size
  let s1 ← rehashIfNeeded s newSize
  some (growEntriesIfNeeded entriesSize s1 newSize)

/-- Chain walk of `Put`.  A hit overwrites the value in place and returns
the updated state with the old value; reaching the chain end returns
`some none`, i.e. fall through to the insert path. -/
def putLoop (s : hashMap K V) (hash : Int) (key : K) (value : V) :
    Nat → Int → Option (Option (hashMap K V × V))
  | 0, _ => none
  | f + 1, i =>
    if 0 ≤ i then do
      let item ← getI? s.entries i
      if item.hash = hash ∧ item.key = key then do
        let newItem : Entry K V :=
          { hash := item.hash, key := item.key, value := value
            next := item.next, alive := item.alive }
        let es ← setI? s.entries i newItem
        some (some ({ s with entries := es }, item.value))
      else putLoop s hash key value f item.next
    else some none

/-- Slot acquisition on the miss path of `Put` and `GetAndPut`: pop the
free list if `freeSize > 0`, else grow and append at `appendCount`. -/
def acquireSlot (s : hashMap K V) : Option (Int × hashMap K V) :=
  if s.freeSize > 0 then do
    let e ← getI? s.entries s.freeCount
    some (s.freeCount, { s with freeCount := e.next, freeSize := s.freeSize - 1 })
  else do
    let s' ← grow s (Size s + 1)
    some (s'.appendCount, { s' with appendCount := s'.appendCount + 1 })

/-- Shared miss path of `Put` and `GetAndPut`: obtain a slot via
`acquireSlot`, then write the new entry and make it the chain head.  Note
that `idx` was computed against the bucket array *before* `grow` possibly
replaced it. -/
def insertFresh (s : hashMap K V) (idx : Int) (hash : Int) (key : K) (value : V) :
    Option (hashMap K V) := do
  let (bucket, s₂) ← acquireSlot s
  let headv ← getI? s₂.buckets idx
  let newItem : Entry K V :=
    { hash := hash, key := key, value := value, next := headv, alive := true }
  let es ← setI? s₂.entries bucket newItem
  let bs ← setI? s₂.buckets idx bucket
  some { s₂ with entries := es, buckets := bs }

/-- `func (a HashDict[K, V]) Put(key K, value V) Option[V]`.  Returns the
updated table and `some old` on an overwrite, `none` for a fresh key. -/
def Put (s : hashMap K V) (key : K) (value : V) : Option (hashMap K V × Option V) := do
  let hash := s.hasher key
  let idx := index s hash
  let start ← getI? s.buckets idx
  match ← putLoop s hash key value (s.entries.size + 1) start with
  | some (s', old) => some (s', some old)
  | none => do
    let s' ← insertFresh s idx hash key value
    some (s', none)

/-- Chain walk of `GetAndPut`: on a hit, store `set (some old)` and return
`(newValue, some old)`. -/
def getAndPutLoop (s : hashMap K V) (hash : Int) (key : K) (set : Option V → V) :
    Nat → Int → Option (Option (hashMap K V × V × V))
  | 0, _ => none
  | f + 1, i =>
    if 0 ≤ i then do
      let item ← getI? s.entries i
      if item.hash = hash ∧ item.key = key then do
        let newValue := set (some item.value)
        let newItem : Entry K V :=
          { hash := item.hash, key := item.key, value := newValue
            next := item.next, alive := item.alive }
        let es ← setI? s.entries i newItem
        some (some ({ s with entries := es }, newValue, item.value))
      else getAndPutLoop s hash key set f item.next
    else some none

/-- `func (a HashDict[K, V]) GetAndPut(key K, set func(oldValue Option[V]) V) Pair[V, Option[V]]`. -/
def GetAndPut (s : hashMap K V) (key : K) (set : Option V → V) :
    Option (hashMap K V × V × Option V) := do
  let hash := s.hasher key
  let idx := index s hash
  let start ← getI? s.buckets idx
  match ← getAndPutLoop s hash key set (s.entries.size + 1) start with
  | some (s', newValue, old) => some (s', newValue, some old)
  | none => do
    let newValue := set none
    let s' ← insertFresh s idx hash key newValue
    some (s', newValue, none)

/-- The `if last < 0 { ... } else { ... }` block of `Remove` on a match:
update the bucket head when `last < 0`, else the predecessor's `next` link
(`nexti` is `a.inner.entries[i].next`).  Since `Remove` never assigns
`last` after initializing it to `-1`, the else branch is dead code in the
program; it is kept because it is in the source. -/
def spliceOut (s : hashMap K V) (idx last nexti : Int) : Option (hashMap K V) :=
  if last < 0 then do
    let bs ← setI? s.buckets idx nexti
    some { s with buckets := bs }
  else do
    let prev ← getI? s.entries last
    let es ← setI? s.entries last { prev with next := nexti }
    some { s with entries := es }

/-- Chain walk of `Remove`.  The source declares `var last = -1` and never
assigns `last` anywhere in the loop, so this recursion passes `last`
through unchanged: every match takes the `last < 0` branch of `spliceOut`
and overwrites the bucket head with `entries[i].next`, truncating the
chain on a mid-chain match.  On a match the slot is then overwritten with
a cleared entry whose `next` is the current `freeCount`, and
`freeCount = i; freeCount++` is performed exactly as in the source. -/
def removeLoop (s : hashMap K V) (hash : Int) (key : K) (idx : Int) :
    Nat → Int → Int → Option (Option V × hashMap K V)
  | 0, _, _ => none
  | f + 1, last, i =>
    if 0 ≤ i then do
      let item ← getI? s.entries i
      if item.hash = hash ∧ item.key = key then do
        let s₁ ← spliceOut s idx last item.next
        let empty : Entry K V :=
          { hash := 0, key := default, value := default
            next := s₁.freeCount, alive := false }
        let es ← setI? s₁.entries i empty
        some (some item.value, { s₁ with entries := es, freeCount := i + 1 })
      else removeLoop s hash key idx f last item.next
    else some (none, s)

/-- `func (a HashDict[K, V]) Remove(key K) Option[V]`. -/
def Remove (s : hashMap K V) (key : K) : Option (Option V × hashMap K V) := do
  let hash := s.hasher key
  let idx := index s hash
  let start ← getI? s.buckets idx
  removeLoop s hash key idx (s.entries.size + 1) (-1) start

/-- `func (a HashDict[K, V]) Clear()`: set every bucket to `-1` and every
entry to the zero value; nothing else is touched. -/
def Clear (s : hashMap K V) : Option (hashMap K V) := do
  let bs ← clearLoop (-1 : Int) (s.buckets.size + 1) 0 s.buckets
  let es ← clearLoop (default : Entry K V) (s.entries.size + 1) 0 s.entries
  some { s with buckets := bs, entries := es }

/-- Loop of `func (a *hashMapIterator[K, V]) Next() Option[Pair[K, V]]`,
drained to completion: while `index < len(entries)-1`, advance and yield
the entry when it is alive.  A fresh iterator (`Iter()`) starts at `-1`. -/
def iterCollect (s : hashMap K V) : Nat → Int → Option (List (K × V))
  | 0, _ => none
  | f + 1, idx =>
    if idx < (s.entries.size : Int) - 1 then do
      let item ← getI? s.entries (idx + 1)
      if item.alive then do
        let rest ← iterCollect s f (idx + 1)
        some ((item.key, item.value) :: rest)
      else iterCollect s f (idx + 1)
    else some []

/-- All pairs yielded by a full run of a fresh iterator obtained from
`Iter()` (which constructs `&hashMapIterator[K, V]{-1, a}`). -/
def iterList (s : hashMap K V) : Option (List (K × V)) :=
  iterCollect s (s.entries.size + 1) (-1)

/-- Driver used by the claims that speak about sequences of insertions:
perform `Put` for each pair in order, propagating panics. -/
def PutSeq (s : hashMap K V) (l : List (K × V)) : Option (hashMap K V) :=
  l.foldlM (fun s kv => (Put s kv.1 kv.2).map Prod.fst) s

namespace HashSet

/-- Modelled from the spec: `HashSet` (in `src/hash_set.go`) stores each
element as a key mapped to the unit value in an embedded `HashMap`, whose
source file is not under `src/`; per spec sections 2 and 4.2 that embedded
table is the hash-table core specified in section 4.1, which is exactly the
`hashMap` engine embedded above from `src/dict/hash_dict.go`, so the set
state is that table with `Unit` values. -/
def State (K : Type) := hashMap K Unit

/-- `func MakeHashSet[T comparable](hasher func(data T) int, capacity int) HashSet[T]`:
`HashSet[T]{MakeHashMap[T, Void](hasher, capacity)}` with the embedded
table modelled as above. -/
def Make (hasher : K → Int) (capacity : Int) : State K :=
  MakeHashDict hasher capacity

/-- `func (a HashSet[T]) Put(element T) bool` from `src/hash_set.go`:
`return a.inner.Put(element, Void{}).IsSome()`. -/
def Put (s : State K) (element : K) : Option (State K × Bool) :=
  (GoCollections.Put s element ()).map (fun r => (r.1, r.2.isSome))

end HashSet

/-- Property of the bucket-array length stated by claim C9: the smallest
power of two that is at least `max(cap, 0)`, with a minimum of 16
(equivalently: the least power of two that is ≥ 16 and ≥ `cap`). -/
def IsLeastPow2Ge (cap n : Int) : Prop :=
  (∃ k : Nat, n = 2 ^ k) ∧ 16 ≤ n ∧ cap ≤ n ∧
    ∀ m : Int, (∃ k : Nat, m = 2 ^ k) → 16 ≤ m → cap ≤ m → n ≤ m

/-- One successful mutating operation of the public table API, relating the
table state before to the state after. -/
inductive Step : hashMap Int Int → hashMap Int Int → Prop
  | put (s s' : hashMap Int Int) (key value : Int) (r : Option Int)
      (h : Put s key value = some (s', r)) : Step s s'
  | getAndPut (s s' : hashMap Int Int) (key : Int) (f : Option Int → Int)
      (nv : Int) (r : Option Int)
      (h : GetAndPut s key f = some (s', nv, r)) : Step s s'
  | remove (s s' : hashMap Int Int) (key : Int) (r : Option Int)
      (h : Remove s key = some (r, s')) : Step s s'
  | clear (s s' : hashMap Int Int) (h : Clear s = some s') : Step s s'

/-! ### Concrete tables and insertion sequences used by the claims -/

/-- A freshly constructed table with the identity hasher and capacity 0
(so 16 buckets and the default 10 entry slots). -/
def freshDict : hashMap Int Int := MakeHashDict NumberHasher 0

/-- The pairs `(0,0), (1,1), ..., (n-1, n-1)`: pairwise-distinct keys. -/
def pairsUpTo (n : Nat) : List (Int × Int) :=
  (List.range n).map (fun k => ((k : Int), (k : Int)))

/-- Insertion sequence whose 31st `Put` (key 30) triggers the doubling of
the bucket array from 16 to 32. -/
def growthPairs : List (Int × Int) := pairsUpTo 31

/-- `growthPairs` followed by a second `Put` of key 30: the first copy of
key 30 was left in the wrong bucket by the growth on the 31st `Put`, so the
second `Put` misses it and appends a second live entry for the same key. -/
def dupKeyPairs : List (Int × Int) := growthPairs ++ [(30, 99)]

/-- `dupKeyPairs` followed by the distinct keys 31..61; the `Put` of key 61
triggers the doubling of the bucket array from 32 to 64, whose rehash puts
both live copies of key 30 into the same chain. -/
def dupChainPairs : List (Int × Int) :=
  dupKeyPairs ++ (List.range 31).map (fun k => ((k + 31 : Int), (k + 31 : Int)))

/-! ### Helper lemmas about the array primitives -/

theorem setI?_size {α : Type} {xs ys : Array α} {i : Int} {v : α}
    (h : setI? xs i v = some ys) : ys.size = xs.size := by
  unfold setI? at h
  split at h
  · simp only [Option.some.injEq] at h
    subst h
    simp
  · exact Option.noConfusion h

theorem getI?_setI?_self {α : Type} {xs ys : Array α} {i : Int} {v : α}
    (h : setI? xs i v = some ys) : getI? ys i = some v := by
  unfold setI? at h
  split at h
  next hb =>
    simp only [Option.some.injEq] at h
    subst h
    simp [getI?, hb.1, hb.2, Array.get_eq_getElem, Array.getElem_set]
  next => exact Option.noConfusion h

theorem getI?_setI?_ne {α : Type} {xs ys : Array α} {i j : Int} {v : α}
    (h : setI? xs i v = some ys) (hij : j ≠ i) : getI? ys j = getI? xs j := by
  unfold setI? at h
  split at h
  next hb =>
    simp only [Option.some.injEq] at h
    subst h
    unfold getI?
    by_cases hj : 0 ≤ j ∧ j.toNat < xs.size
    · rw [dif_pos (by simpa using hj), dif_pos hj]
      simp only [Option.some.injEq, Array.get_eq_getElem, Array.getElem_set]
      rw [if_neg]
      omega
    · rw [dif_neg (by simpa using hj), dif_neg hj]
  next => exact Option.noConfusion h

theorem getI?_isSome {α : Type} {xs : Array α} {i : Int}
    (h0 : 0 ≤ i) (h1 : i.toNat < xs.size) : ∃ v, getI? xs i = some v := by
  exact ⟨_, dif_pos ⟨h0, h1⟩⟩

theorem setI?_isSome {α : Type} {xs : Array α} {i : Int} (v : α)
    (h0 : 0 ≤ i) (h1 : i.toNat < xs.size) : ∃ ys, setI? xs i v = some ys := by
  exact ⟨_, dif_pos ⟨h0, h1⟩⟩

theorem getI?_neg {α : Type} {xs : Array α} {i : Int} (h : i < 0) :
    getI? xs i = none := by
  unfold getI?
  rw [dif_neg]
  omega

/-- Bridge between the monadic bind produced by do-notation over `Option`
and an explicit case split. -/
theorem bindEqSome {A B : Type} {x : Option A} {f : A → Option B} {b : B} :
    (x >>= f) = some b ↔ ∃ a, x = some a ∧ f a = some b := by
  cases x <;> simp

/-! ### clearLoop characterization -/

theorem clearLoop_spec {α : Type} (v : α) :
    ∀ (f : Nat) (i : Int) (xs : Array α), 0 ≤ i → xs.size ≤ i.toNat + f →
      ∃ ys, clearLoop v f i xs = some ys ∧ ys.size = xs.size ∧
        ∀ j : Int, 0 ≤ j → j.toNat < xs.size →
          getI? ys j = if i ≤ j then some v else getI? xs j := by
  intro f
  induction f with
  | zero =>
    intro i xs h0 hle
    refine ⟨xs, rfl, rfl, ?_⟩
    intro j hj0 hj1
    rw [if_neg (by omega)]
  | succ f ih =>
    intro i xs h0 hle
    by_cases hi : i < (xs.size : Int)
    · have hib : i.toNat < xs.size := by omega
      obtain ⟨ys1, hset⟩ := setI?_isSome v h0 hib
      have hsz1 : ys1.size = xs.size := setI?_size hset
      have hb1 : (0 : Int) ≤ i + 1 := by omega
      have hb2 : ys1.size ≤ (i + 1).toNat + f := by omega
      obtain ⟨ys, hrec, hsize, hget⟩ := ih (i + 1) ys1 hb1 hb2
      refine ⟨ys, ?_, by omega, ?_⟩
      · unfold clearLoop
        rw [if_pos hi, hset]
        simpa using hrec
      · intro j hj0 hj1
        rw [hget j hj0 (by omega)]
        by_cases hij : i + 1 ≤ j
        · rw [if_pos hij, if_pos (by omega)]
        · by_cases hij2 : i ≤ j
          · have hji : j = i := by omega
            subst hji
            rw [if_neg hij, if_pos le_rfl]
            exact getI?_setI?_self hset
          · rw [if_neg hij, if_neg hij2]
            exact getI?_setI?_ne hset (by omega)
    · refine ⟨xs, ?_, rfl, ?_⟩
      · unfold clearLoop
        rw [if_neg hi]
      · intro j hj0 hj1
        rw [if_neg (by omega)]

theorem clearLoop_size {α : Type} (v : α) :
    ∀ (f : Nat) (i : Int) (xs ys : Array α),
      clearLoop v f i xs = some ys → ys.size = xs.size := by
  intro f
  induction f with
  | zero =>
    intro i xs ys h
    simp only [clearLoop, Option.some.injEq] at h
    rw [h]
  | succ f ih =>
    intro i xs ys h
    unfold clearLoop at h
    split at h
    · rw [bindEqSome] at h
      obtain ⟨xs1, hset, hrec⟩ := h
      rw [ih _ _ _ hrec, setI?_size hset]
    · simp only [Option.some.injEq] at h
      subst h
      rfl

/-! ### Construction, Clear and iteration lemmas -/

theorem MakeHashDict_buckets_size (hasher : Int → Int) (cap : Int) :
    (MakeHashDict hasher cap : hashMap Int Int).buckets.size = (bucketsSizeFor cap).toNat := by
  obtain ⟨ys, hrun, hsize, _⟩ :=
    clearLoop_spec (-1 : Int) ((bucketsSizeFor cap).toNat + 1) 0
      (Array.mkArray (bucketsSizeFor cap).toNat (0 : Int)) le_rfl (by simp)
  unfold MakeHashDict
  simp only [hrun, Option.getD_some]
  simpa using hsize

theorem iterCollect_of_dead {K V : Type} [DecidableEq K] [Inhabited K] [Inhabited V]
    (s : hashMap K V)
    (hdead : ∀ (j : Int) (e : Entry K V), 0 ≤ j → getI? s.entries j = some e →
      e.alive = false) :
    ∀ (f : Nat) (idx : Int), -1 ≤ idx → idx ≤ (s.entries.size : Int) - 1 →
      (s.entries.size : Int) ≤ idx + f → iterCollect s f idx = some [] := by
  intro f
  induction f with
  | zero =>
    intro idx h0 hub hle
    exact absurd hle (by omega)
  | succ f ih =>
    intro idx h0 hub hle
    unfold iterCollect
    by_cases hidx : idx < (s.entries.size : Int) - 1
    · rw [if_pos hidx]
      have hb0 : (0 : Int) ≤ idx + 1 := by omega
      have hb1 : (idx + 1).toNat < s.entries.size := by omega
      obtain ⟨e, hget⟩ := getI?_isSome hb0 hb1
      rw [hget]
      have halive : e.alive = false := hdead (idx + 1) e hb0 hget
      have hrec : iterCollect s f (idx + 1) = some [] :=
        ih (idx + 1) (by omega) (by omega) (by omega)
      simp [halive, hrec]
    · rw [if_neg hidx]

/-- Characterization of `Clear`: it succeeds on every table, overwrites the
two arrays (buckets with `-1`, entries with the zero entry) without
changing their lengths, and leaves every bookkeeping field untouched. -/
theorem Clear_spec (s : hashMap Int Int) :
    ∃ s', Clear s = some s' ∧
      s'.buckets.size = s.buckets.size ∧ s'.entries.size = s.entries.size ∧
      (∀ j : Int, 0 ≤ j → j.toNat < s.buckets.size → getI? s'.buckets j = some (-1)) ∧
      (∀ j : Int, 0 ≤ j → j.toNat < s.entries.size → getI? s'.entries j = some default) ∧
      s'.appendCount = s.appendCount ∧ s'.freeCount = s.freeCount ∧
      s'.freeSize = s.freeSize ∧ s'.hasher = s.hasher := by
  obtain ⟨bs, hbs, hbsize, hbget⟩ :=
    clearLoop_spec (-1 : Int) (s.buckets.size + 1) 0 s.buckets le_rfl (by omega)
  obtain ⟨es, hes, hesize, heget⟩ :=
    clearLoop_spec (default : Entry Int Int) (s.entries.size + 1) 0 s.entries le_rfl (by omega)
  refine ⟨{ s with buckets := bs, entries := es }, ?_, hbsize, hesize, ?_, ?_, rfl, rfl, rfl, rfl⟩
  · unfold Clear
    rw [hbs]
    simp only [Option.some_bind, hes, Option.bind_some]
    rfl
  · intro j h0 h1
    rw [hbget j h0 h1, if_pos h0]
  · intro j h0 h1
    rw [heget j h0 h1, if_pos h0]

/-! ### Growth lemmas -/

theorem rehashLoop_sizes {K V : Type} [DecidableEq K] [Inhabited K] [Inhabited V] (n : Int) :
    ∀ (l : List Nat) (es : Array (Entry K V)) (bs : Array Int)
      (es' : Array (Entry K V)) (bs' : Array Int),
      rehashLoop n l es bs = some (es', bs') → es'.size = es.size ∧ bs'.size = bs.size := by
  intro l
  induction l with
  | nil =>
    intro es bs es' bs' h
    simp only [rehashLoop, Option.some.injEq, Prod.mk.injEq] at h
    rw [h.1, h.2]
    exact ⟨rfl, rfl⟩
  | cons i rest ih =>
    intro es bs es' bs' h
    unfold rehashLoop at h
    rw [bindEqSome] at h
    obtain ⟨v, hv, h⟩ := h
    by_cases halive : v.alive = true
    · rw [if_pos halive] at h
      rw [bindEqSome] at h
      obtain ⟨head, hhead, h⟩ := h
      rw [bindEqSome] at h
      obtain ⟨es1, hes1, h⟩ := h
      rw [bindEqSome] at h
      obtain ⟨bs1, hbs1, h⟩ := h
      obtain ⟨h1, h2⟩ := ih es1 bs1 es' bs' h
      rw [h1, h2, setI?_size hes1, setI?_size hbs1]
      exact ⟨rfl, rfl⟩
    · rw [if_neg halive] at h
      exact ih es bs es' bs' h

theorem rehashIfNeeded_entries_size {s s1 : hashMap Int Int} {n : Int}
    (h : rehashIfNeeded s n = some s1) : s1.entries.size = s.entries.size := by
  unfold rehashIfNeeded at h
  split at h
  · exact Option.noConfusion h
  split at h
  · rw [bindEqSome] at h
    obtain ⟨⟨es, bs⟩, hloop, h⟩ := h
    simp only [Option.some.injEq] at h
    rw [← h]
    exact (rehashLoop_sizes _ _ _ _ _ _ hloop).1
  · simp only [Option.some.injEq] at h
    rw [← h]

theorem rehashIfNeeded_buckets_size {s s1 : hashMap Int Int} {n : Int}
    (h : rehashIfNeeded s n = some s1) :
    s1.buckets.size = s.buckets.size ∨ s1.buckets.size = 2 * s.buckets.size := by
  unfold rehashIfNeeded at h
  split at h
  · exact Option.noConfusion h
  split at h
  · rw [bindEqSome] at h
    obtain ⟨⟨es, bs⟩, hloop, h⟩ := h
    simp only [Option.some.injEq] at h
    rw [← h]
    right
    have := (rehashLoop_sizes _ _ _ _ _ _ hloop).2
    simp only [Array.size_mkArray] at this
    rw [this]
    omega
  · simp only [Option.some.injEq] at h
    rw [← h]
    exact Or.inl rfl

theorem copyInto_size {α : Type} (src dst : Array α) :
    (copyInto src dst).size = dst.size := by
  simp [copyInto]

theorem getI?_copyInto_of_lt {α : Type} {src dst : Array α} {i : Int}
    (h0 : 0 ≤ i) (h1 : i.toNat < src.size) (h2 : i.toNat < dst.size) :
    getI? (copyInto src dst) i = getI? src i := by
  unfold getI?
  rw [dif_pos ⟨h0, by rw [copyInto_size]; exact h2⟩, dif_pos ⟨h0, h1⟩]
  simp only [Option.some.injEq, copyInto, Array.get_eq_getElem, Array.getElem_ofFn]
  rw [dif_pos h1]

theorem growEntriesIfNeeded_buckets {K V : Type} [DecidableEq K] [Inhabited K] [Inhabited V]
    (m : Nat) (s : hashMap K V) (n : Int) :
    (growEntriesIfNeeded m s n).buckets = s.buckets := by
  unfold growEntriesIfNeeded
  split <;> rfl

theorem grow_buckets_size {s s' : hashMap Int Int} {n : Int}
    (h : grow s n = some s') :
    s'.buckets.size = s.buckets.size ∨ s'.buckets.size = 2 * s.buckets.size := by
  unfold grow at h
  rw [bindEqSome] at h
  obtain ⟨s1, h1, h⟩ := h
  simp only [Option.some.injEq] at h
  rw [← h, growEntriesIfNeeded_buckets]
  exact rehashIfNeeded_buckets_size h1

theorem grow_entry_store_triples (s s' : hashMap Int Int) (n : Int)
    (hg : grow s n = some s') (hex : (s.entries.size : Int) < n) :
    s'.entries.size = 3 * s.entries.size ∧
    ∃ s1, rehashIfNeeded s n = some s1 ∧ s1.entries.size = s.entries.size ∧
      ∀ i : Int, 0 ≤ i → i.toNat < s.entries.size →
        getI? s'.entries i = getI? s1.entries i := by
  unfold grow at hg
  rw [bindEqSome] at hg
  obtain ⟨s1, h1, hg⟩ := hg
  simp only [Option.some.injEq] at hg
  have hs1 : s1.entries.size = s.entries.size := rehashIfNeeded_entries_size h1
  have hgrown : growEntriesIfNeeded s.entries.size s1 n =
      { s1 with entries := copyInto s1.entries (Array.mkArray (s.entries.size + s.entries.size * 2) default) } := by
    unfold growEntriesIfNeeded
    rw [if_pos hex]
  rw [← hg, hgrown]
  constructor
  · simp only [copyInto_size, Array.size_mkArray]
    omega
  · refine ⟨s1, h1, hs1, ?_⟩
    intro i h0 hi
    exact getI?_copyInto_of_lt h0 (by omega) (by simp; omega)

/-! ### Bucket sizing lemmas -/

theorem bucketsSizeForLoop_spec (size : Int) :
    ∀ (f : Nat) (acc : Int), 0 < acc → size ≤ acc + f →
      ∃ k : Nat, bucketsSizeForLoop size f acc = acc * 2 ^ k ∧
        size ≤ acc * 2 ^ k ∧ ∀ j : Nat, j < k → acc * 2 ^ j < size := by
  intro f
  induction f with
  | zero =>
    intro acc hacc hle
    refine ⟨0, by simp [bucketsSizeForLoop], by simpa using hle, ?_⟩
    intro j hj
    exact absurd hj (Nat.not_lt_zero j)
  | succ f ih =>
    intro acc hacc hle
    unfold bucketsSizeForLoop
    by_cases h : acc < size
    · rw [if_pos h]
      obtain ⟨k, h1, h2, h3⟩ := ih (acc * 2) (by omega) (by omega)
      refine ⟨k + 1, ?_, ?_, ?_⟩
      · rw [h1]
        ring
      · calc size ≤ acc * 2 * 2 ^ k := h2
          _ = acc * 2 ^ (k + 1) := by ring
      · intro j hj
        cases j with
        | zero => simpa using h
        | succ j =>
          calc acc * 2 ^ (j + 1) = acc * 2 * 2 ^ j := by ring
            _ < size := h3 j (by omega)
    · rw [if_neg h]
      refine ⟨0, by simp, by omega, ?_⟩
      intro j hj
      exact absurd hj (Nat.not_lt_zero j)

theorem bucketsSizeFor_isLeast (cap : Int) : IsLeastPow2Ge cap (bucketsSizeFor cap) := by
  obtain ⟨k, h1, h2, h3⟩ := bucketsSizeForLoop_spec cap (cap.toNat + 1) 16 (by omega) (by omega)
  unfold bucketsSizeFor
  rw [h1]
  have h2pos : ∀ m : Nat, (0 : Int) < 2 ^ m := fun m => pow_pos (by norm_num) m
  have h16 : (16 : Int) = 2 ^ 4 := by norm_num
  refine ⟨⟨k + 4, by rw [h16]; ring⟩, ?_, h2, ?_⟩
  · have := h2pos k
    nlinarith
  · rintro m ⟨j, rfl⟩ h16m hcapm
    rcases Nat.eq_zero_or_pos k with hk | hk
    · subst hk
      simpa using h16m
    · obtain ⟨k', rfl⟩ : ∃ k', k = k' + 1 := ⟨k - 1, by omega⟩
      have hlt : 16 * 2 ^ k' < cap := h3 k' (by omega)
      have hpow : (2 : Int) ^ (k' + 4) < 2 ^ j := by
        calc (2 : Int) ^ (k' + 4) = 16 * 2 ^ k' := by rw [h16]; ring
          _ < cap := hlt
          _ ≤ 2 ^ j := hcapm
      have hj : k' + 4 < j := by
        by_contra hc
        push_neg at hc
        exact absurd hpow (not_lt.mpr (pow_le_pow_right₀ (by norm_num) hc))
      calc (16 : Int) * 2 ^ (k' + 1) = 2 ^ (k' + 5) := by rw [h16]; ring
        _ ≤ 2 ^ j := pow_le_pow_right₀ (by norm_num) (by omega)

theorem bucketsSizeFor_pos (cap : Int) : 16 ≤ bucketsSizeFor cap :=
  (bucketsSizeFor_isLeast cap).2.1

/-! ### Bucket-array size across each operation -/

theorem putLoop_buckets {s : hashMap Int Int} {hash key value : Int} :
    ∀ (f : Nat) (i : Int) (s' : hashMap Int Int) (old : Int),
      putLoop s hash key value f i = some (some (s', old)) → s'.buckets = s.buckets := by
  intro f
  induction f with
  | zero =>
    intro i s' old h
    exact Option.noConfusion h
  | succ f ih =>
    intro i s' old h
    unfold putLoop at h
    split at h
    · rw [bindEqSome] at h
      obtain ⟨item, hitem, h⟩ := h
      split at h
      · rw [bindEqSome] at h
        obtain ⟨es, hes, h⟩ := h
        simp only [Option.some.injEq, Prod.mk.injEq] at h
        rw [← h.1]
      · exact ih item.next s' old h
    · simp at h

theorem acquireSlot_buckets_size {s s₂ : hashMap Int Int} {bucket : Int}
    (h : acquireSlot s = some (bucket, s₂)) :
    s₂.buckets.size = s.buckets.size ∨ s₂.buckets.size = 2 * s.buckets.size := by
  unfold acquireSlot at h
  split at h
  · rw [bindEqSome] at h
    obtain ⟨e, he, h⟩ := h
    simp only [Option.some.injEq, Prod.mk.injEq] at h
    rw [← h.2]
    exact Or.inl rfl
  · rw [bindEqSome] at h
    obtain ⟨sg, hg, h⟩ := h
    simp only [Option.some.injEq, Prod.mk.injEq] at h
    rw [← h.2]
    simpa using grow_buckets_size hg

theorem insertFresh_buckets_size {s s' : hashMap Int Int} {idx hash key value : Int}
    (h : insertFresh s idx hash key value = some s') :
    s'.buckets.size = s.buckets.size ∨ s'.buckets.size = 2 * s.buckets.size := by
  unfold insertFresh at h
  rw [bindEqSome] at h
  obtain ⟨⟨bucket, s₂⟩, hs₂, h⟩ := h
  have hmid : s₂.buckets.size = s.buckets.size ∨ s₂.buckets.size = 2 * s.buckets.size :=
    acquireSlot_buckets_size hs₂
  simp only [bindEqSome, Option.some.injEq] at h
  obtain ⟨headv, hheadv, es, hes, bs, hbs, h⟩ := h
  rw [← h]
  simpa [setI?_size hbs] using hmid

theorem Put_buckets_size {s s' : hashMap Int Int} {key value : Int} {r : Option Int}
    (h : Put s key value = some (s', r)) :
    s'.buckets.size = s.buckets.size ∨ s'.buckets.size = 2 * s.buckets.size := by
  unfold Put at h
  rw [bindEqSome] at h
  obtain ⟨start, hstart, h⟩ := h
  rw [bindEqSome] at h
  obtain ⟨x, hx, h⟩ := h
  cases x with
  | some p =>
    obtain ⟨s1, old⟩ := p
    simp only [Option.some.injEq, Prod.mk.injEq] at h
    rw [← h.1, putLoop_buckets _ _ _ _ hx]
    exact Or.inl rfl
  | none =>
    rw [bindEqSome] at h
    obtain ⟨s1, hins, h⟩ := h
    simp only [Option.some.injEq, Prod.mk.injEq] at h
    rw [← h.1]
    exact insertFresh_buckets_size hins

theorem getAndPutLoop_buckets {s : hashMap Int Int} {hash key : Int} {f : Option Int → Int} :
    ∀ (fuel : Nat) (i : Int) (s' : hashMap Int Int) (nv old : Int),
      getAndPutLoop s hash key f fuel i = some (some (s', nv, old)) → s'.buckets = s.buckets := by
  intro fuel
  induction fuel with
  | zero =>
    intro i s' nv old h
    exact Option.noConfusion h
  | succ fuel ih =>
    intro i s' nv old h
    unfold getAndPutLoop at h
    split at h
    · rw [bindEqSome] at h
      obtain ⟨item, hitem, h⟩ := h
      split at h
      · rw [bindEqSome] at h
        obtain ⟨es, hes, h⟩ := h
        simp only [Option.some.injEq, Prod.mk.injEq] at h
        rw [← h.1]
      · exact ih item.next s' nv old h
    · simp at h

theorem GetAndPut_buckets_size {s s' : hashMap Int Int} {key : Int}
    {f : Option Int → Int} {nv : Int} {r : Option Int}
    (h : GetAndPut s key f = some (s', nv, r)) :
    s'.buckets.size = s.buckets.size ∨ s'.buckets.size = 2 * s.buckets.size := by
  unfold GetAndPut at h
  rw [bindEqSome] at h
  obtain ⟨start, hstart, h⟩ := h
  rw [bindEqSome] at h
  obtain ⟨x, hx, h⟩ := h
  cases x with
  | some p =>
    obtain ⟨s1, nv1, old1⟩ := p
    simp only [Option.some.injEq, Prod.mk.injEq] at h
    rw [← h.1, getAndPutLoop_buckets _ _ _ _ _ hx]
    exact Or.inl rfl
  | none =>
    rw [bindEqSome] at h
    obtain ⟨s1, hins, h⟩ := h
    simp only [Option.some.injEq, Prod.mk.injEq] at h
    rw [← h.1]
    exact insertFresh_buckets_size hins

theorem spliceOut_buckets_size {s s₁ : hashMap Int Int} {idx last nexti : Int}
    (h : spliceOut s idx last nexti = some s₁) : s₁.buckets.size = s.buckets.size := by
  unfold spliceOut at h
  split at h
  · rw [bindEqSome] at h
    obtain ⟨bs, hbs, h⟩ := h
    simp only [Option.some.injEq] at h
    rw [← h]
    exact setI?_size hbs
  · rw [bindEqSome] at h
    obtain ⟨prev, hprev, h⟩ := h
    rw [bindEqSome] at h
    obtain ⟨es, hes, h⟩ := h
    simp only [Option.some.injEq] at h
    rw [← h]


theorem removeLoop_buckets_size {s : hashMap Int Int} {hash key idx : Int} :
    ∀ (f : Nat) (last i : Int) (r : Option Int) (s' : hashMap Int Int),
      removeLoop s hash key idx f last i = some (r, s') →
      s'.buckets.size = s.buckets.size := by
  intro f
  induction f with
  | zero =>
    intro last i r s' h
    exact Option.noConfusion h
  | succ f ih =>
    intro last i r s' h
    unfold removeLoop at h
    split at h
    · rw [bindEqSome] at h
      obtain ⟨item, hitem, h⟩ := h
      split at h
      · rw [bindEqSome] at h
        obtain ⟨s₁, hs₁, h⟩ := h
        have hmid : s₁.buckets.size = s.buckets.size := spliceOut_buckets_size hs₁
        simp only [bindEqSome, Option.some.injEq, Prod.mk.injEq] at h
        obtain ⟨es, hes, h⟩ := h
        rw [← h.2]
        exact hmid
      · exact ih last item.next r s' h
    · simp only [Option.some.injEq, Prod.mk.injEq] at h
      rw [← h.2]

theorem Remove_buckets_size {s s' : hashMap Int Int} {key : Int} {r : Option Int}
    (h : Remove s key = some (r, s')) : s'.buckets.size = s.buckets.size := by
  unfold Remove at h
  rw [bindEqSome] at h
  obtain ⟨start, hstart, h⟩ := h
  exact removeLoop_buckets_size _ _ _ _ _ h

theorem Clear_buckets_size {s s' : hashMap Int Int}
    (h : Clear s = some s') : s'.buckets.size = s.buckets.size := by
  unfold Clear at h
  rw [bindEqSome] at h
  obtain ⟨bs, hbs, h⟩ := h
  rw [bindEqSome] at h
  obtain ⟨es, hes, h⟩ := h
  simp only [Option.some.injEq] at h
  rw [← h]
  exact clearLoop_size _ _ _ _ _ hbs

/-! ### Truncated modulus sign lemmas -/

theorem tmod_negSucc_ofNat (m n : Nat) :
    Int.tmod (Int.negSucc m) (Int.ofNat n) = -(((m + 1) % n : Nat) : Int) := rfl

theorem tmod_neg_of_neg_not_dvd {h : Int} {n : Nat}
    (hneg : h < 0) (hnd : ¬ ((n : Int) ∣ h)) : Int.tmod h (n : Int) < 0 := by
  cases h with
  | ofNat k =>
    exact absurd hneg (Int.not_lt.mpr (Int.ofNat_nonneg k))
  | negSucc m =>
    rw [show ((n : Int)) = Int.ofNat n from rfl, tmod_negSucc_ofNat]
    have hmod : (m + 1) % n ≠ 0 := by
      intro hz
      apply hnd
      have hdvd : n ∣ (m + 1) := Nat.dvd_iff_mod_eq_zero.mpr hz
      rw [Int.negSucc_eq]
      have : ((n : Int)) ∣ ((m + 1 : Nat) : Int) := Int.natCast_dvd_natCast.mpr hdvd
      push_cast at this ⊢
      exact dvd_neg.mpr this
    omega

theorem getI?_bounds {α : Type} {xs : Array α} {i : Int} {v : α}
    (h : getI? xs i = some v) : 0 ≤ i ∧ i.toNat < xs.size := by
  unfold getI? at h
  split at h
  next hb => exact hb
  next => exact Option.noConfusion h

/-- Claim C5 (amended): `Clear()` sets every bucket to the empty sentinel
`-1`, sets every entry to its zero value, and leaves the lengths of both
arrays unchanged — but it does *not* touch the append/free bookkeeping:
`appendCount`, `freeCount` and `freeSize` (and therefore `Size()`) keep
their previous values.  A fresh iteration after `Clear` yields nothing. -/
theorem clear_resets_arrays_but_not_bookkeeping (s : hashMap Int Int) :
    ∃ s', Clear s = some s' ∧
      s'.buckets.size = s.buckets.size ∧ s'.entries.size = s.entries.size ∧
      (∀ j : Int, 0 ≤ j → j.toNat < s.buckets.size → getI? s'.buckets j = some (-1)) ∧
      (∀ j : Int, 0 ≤ j → j.toNat < s.entries.size → getI? s'.entries j = some default) ∧
      s'.appendCount = s.appendCount ∧ s'.freeCount = s.freeCount ∧
      s'.freeSize = s.freeSize ∧ Size s' = Size s ∧ iterList s' = some [] := by
  obtain ⟨s', h1, h2, h3, h4, h5, h6, h7, h8, h9⟩ := Clear_spec s
  refine ⟨s', h1, h2, h3, h4, h5, h6, h7, h8, ?_, ?_⟩
  · unfold Size
    rw [h6, h8]
  · unfold iterList
    apply iterCollect_of_dead
    · intro j e hj hget
      have hb := getI?_bounds hget
      have hdef := h5 j hj (by omega)
      rw [hdef] at hget
      simp only [Option.some.injEq] at hget
      rw [← hget]
      rfl
    · omega
    · omega
    · omega

/-- Claim C9: at construction the bucket-array length is the smallest power
of two ≥ max(capacity, 0) with a minimum of 16, and every mutating
operation of the API either keeps the bucket array or doubles it — so the
length remains a power of two and never shrinks. -/
theorem buckets_power_of_two_invariant :
    (∀ (hasher : Int → Int) (capacity : Int),
      IsLeastPow2Ge capacity
        (((MakeHashDict hasher capacity : hashMap Int Int)).buckets.size : Int)) ∧
    (∀ s s' : hashMap Int Int, Step s s' →
      ((∃ k : Nat, s.buckets.size = 2 ^ k) → ∃ k : Nat, s'.buckets.size = 2 ^ k) ∧
      s.buckets.size ≤ s'.buckets.size) := by
  constructor
  · intro hasher capacity
    rw [MakeHashDict_buckets_size]
    have hpos : 0 ≤ bucketsSizeFor capacity := by
      have := bucketsSizeFor_pos capacity
      omega
    rw [Int.toNat_of_nonneg hpos]
    exact bucketsSizeFor_isLeast capacity
  · intro s s' hstep
    have hsize : s'.buckets.size = s.buckets.size ∨ s'.buckets.size = 2 * s.buckets.size := by
      cases hstep with
      | put key value r h => exact Put_buckets_size h
      | getAndPut key f nv r h => exact GetAndPut_buckets_size h
      | remove key r h => exact Or.inl (Remove_buckets_size h)
      | clear h => exact Or.inl (Clear_buckets_size h)
    constructor
    · rintro ⟨k, hk⟩
      cases hsize with
      | inl h => exact ⟨k, by rw [h]; exact hk⟩
      | inr h => exact ⟨k + 1, by rw [h, hk]; ring⟩
    · cases hsize with
      | inl h => omega
      | inr h => omega

/-- Witness for the theorem of claim C9, applying it to a fresh table and a
`Clear` step. -/
theorem buckets_power_of_two_invariant_witness :
    Step freshDict ((Clear freshDict).getD freshDict) ∧
    (∃ k : Nat, freshDict.buckets.size = 2 ^ k) ∧
    ((∃ k : Nat, ((Clear freshDict).getD freshDict).buckets.size = 2 ^ k) ∧
      freshDict.buckets.size ≤ ((Clear freshDict).getD freshDict).buckets.size) :=
  ⟨Step.clear _ _ rfl, ⟨4, by decide⟩,
    (buckets_power_of_two_invariant.2 freshDict ((Clear freshDict).getD freshDict)
      (Step.clear _ _ rfl)).1 ⟨4, by decide⟩,
    (buckets_power_of_two_invariant.2 freshDict ((Clear freshDict).getD freshDict)
      (Step.clear _ _ rfl)).2⟩

/-- Claim C10 (amended): for every table and every key whose hasher result
is negative and not an exact multiple of the bucket count, the bucket index
`hash % bucketCount` is negative and `TryGet`, `Put`, `GetAndPut`, `Remove`
and `Contains` all abort with a runtime panic (modelled by `none`) instead
of returning a result. -/
theorem negative_nonmultiple_hash_panics (s : hashMap Int Int) (key value : Int)
    (f : Option Int → Int)
    (hneg : s.hasher key < 0) (hnd : ¬ ((s.buckets.size : Int) ∣ s.hasher key)) :
    index s (s.hasher key) < 0 ∧ TryGet s key = none ∧ Put s key value = none ∧
    GetAndPut s key f = none ∧ Remove s key = none ∧ Contains s key = none := by
  have hidx : index s (s.hasher key) < 0 := tmod_neg_of_neg_not_dvd hneg hnd
  have hget : getI? s.buckets (index s (s.hasher key)) = none := getI?_neg hidx
  refine ⟨hidx, ?_, ?_, ?_, ?_, ?_⟩
  · simp [TryGet, hget]
  · simp [Put, hget]
  · simp [GetAndPut, hget]
  · simp [Remove, hget]
  · simp [Contains, TryGet, hget]

/-- Witness for the theorem of claim C10 at the fresh table and key `-1`. -/
theorem negative_nonmultiple_hash_panics_witness :
    (freshDict.hasher (-1) < 0 ∧
      ¬ ((freshDict.buckets.size : Int) ∣ freshDict.hasher (-1))) ∧
    (index freshDict (freshDict.hasher (-1)) < 0 ∧ TryGet freshDict (-1) = none ∧
      Put freshDict (-1) 0 = none ∧ GetAndPut freshDict (-1) (fun _ => 0) = none ∧
      Remove freshDict (-1) = none ∧ Contains freshDict (-1) = none) :=
  ⟨⟨by decide, by decide⟩,
    negative_nonmultiple_hash_panics freshDict (-1) 0 (fun _ => 0) (by decide) (by decide)⟩

/-- Claim C4 (amended): whenever `grow` is invoked with the append region
exhausted (`newSize` exceeding the entry-array length), the Entry Store's
capacity grows by a factor of 3 (new length = old + 2·old, from
`entriesSize + (entriesSize << 1)`), and every slot of the (possibly
rehashed) entry array is copied to the same index in the larger array. -/
theorem grow_entry_store_triples_claim (s s' : hashMap Int Int) (n : Int)
    (hg : grow s n = some s') (hex : (s.entries.size : Int) < n) :
    s'.entries.size = 3 * s.entries.size ∧
    ∃ s1, rehashIfNeeded s n = some s1 ∧ s1.entries.size = s.entries.size ∧
      ∀ i : Int, 0 ≤ i → i.toNat < s.entries.size →
        getI? s'.entries i = getI? s1.entries i :=
  grow_entry_store_triples s s' n hg hex

/-- Witness for the theorem of claim C4: growing the fresh 10-slot table to
`newSize = 11` produces a 30-slot entry array. -/
theorem grow_entry_store_triples_claim_witness :
    (grow freshDict 11 = some (growEntriesIfNeeded freshDict.entries.size freshDict 11) ∧
      (freshDict.entries.size : Int) < 11) ∧
    ((growEntriesIfNeeded freshDict.entries.size freshDict 11).entries.size =
        3 * freshDict.entries.size ∧
      ∃ s1, rehashIfNeeded freshDict 11 = some s1 ∧
        s1.entries.size = freshDict.entries.size ∧
        ∀ i : Int, 0 ≤ i → i.toNat < freshDict.entries.size →
          getI? (growEntriesIfNeeded freshDict.entries.size freshDict 11).entries i =
            getI? s1.entries i) :=
  ⟨⟨rfl, by decide⟩,
    grow_entry_store_triples_claim freshDict
      (growEntriesIfNeeded freshDict.entries.size freshDict 11) 11 rfl (by decide)⟩

/-! ### Claim theorems -/

/-- Claim C1 (code bug): the claim says `HashSet.Put` returns `true` iff the
element was newly added.  The code returns `a.inner.Put(element, Void{}).IsSome()`,
i.e. whether a *previous* value existed: on a fresh set the first `Put` of
element 1 returns `false` (though 1 was newly added) and the second `Put`
of the same element returns `true`. -/
theorem hashSet_put_returns_presence_of_previous_value :
    (HashSet.Put (HashSet.Make NumberHasher 0) 1).map Prod.snd = some false ∧
    (do
      let (s1, _) ← HashSet.Put (HashSet.Make NumberHasher 0) 1
      let (_, b2) ← HashSet.Put s1 1
      some b2) = some true := by
  constructor <;> decide

/-- Claim C2 (code bug): the claim says a freshly constructed table has
`Size() = 0` and `IsEmpty() = true`, with `Size` equal to
`appendCount - freeCount` (the code's `freeSize` field is the free count).
The code computes `appendCount - freeSize + 1`, so the fresh table — which
has `appendCount = 0` and `freeSize = 0` — reports size 1 and is not empty. -/
theorem size_of_fresh_table_is_one :
    freshDict.appendCount = 0 ∧ freshDict.freeSize = 0 ∧
    Size freshDict = 1 ∧ IsEmpty freshDict = false := by
  refine ⟨?_, ?_, ?_, ?_⟩ <;> decide

/-- Claim C3 (code bug): two separate violations on concrete inputs.
First, after `Put 5 7` into a fresh table the single entry lives in slot
0; the claim says `Remove 5` must leave the free-list head (`freeCount` in
the code) equal to the freed index 0 and grow the free count (`freeSize`)
by one, but the code performs `freeCount = i; freeCount++` and never
touches `freeSize`, so the head ends up at 1 and the count stays 0 (the
removed value 7 is returned).  Second, the claimed splice itself fails on
a mid-chain match: after `Put 0 100` and `Put 16 200` bucket 0's chain is
slot 1 → slot 0, and `Remove 0` — because `last` is initialized to `-1`
and never assigned in the loop — overwrites the bucket head with
`entries[0].next = -1` instead of updating the predecessor's `next`,
orphaning key 16: `TryGet 16` returns `None` although only key 0 was
removed. -/
theorem remove_free_list_bookkeeping :
    ((do
      let (s1, _) ← Put freshDict 5 7
      let (r, s2) ← Remove s1 5
      some (r, s2.appendCount, s2.freeCount, s2.freeSize)) =
      some (some 7, 1, 1, 0)) ∧
    ((do
      let (s1, _) ← Put freshDict 0 100
      let (s2, _) ← Put s1 16 200
      let (r, s3) ← Remove s2 0
      let v16 ← TryGet s3 16
      some (r, v16, getI? s3.buckets 0)) =
      some (some 100, none, some (-1))) := by
  constructor <;> decide

/-- Claim C4 (counterexample): the claim says the Entry Store grows by 1.5×
(`old + old/2`), so the 10-slot store of a fresh table would grow to 15.
The code allocates `entriesSize + (entriesSize << 1)`, i.e. 3×: after ten
`Put`s of distinct keys the store has 30 slots, not 15. -/
theorem entry_growth_triples_counterexample :
    freshDict.entries.size = 10 ∧
    (PutSeq freshDict (pairsUpTo 10)).map (fun s => s.entries.size) = some 30 ∧
    (30 : Nat) ≠ 15 := by
  refine ⟨?_, ?_, ?_⟩ <;> decide

/-- Claim C5 (counterexample): the claim says `Clear()` resets
`appendCount`, the free count and the free-list head to the empty-table
state so that `Size() = 0` afterwards.  After one `Put` and a `Clear`, the
code leaves `appendCount = 1` untouched and `Size()` reports 2, not 0. -/
theorem clear_bookkeeping_counterexample :
    (do
      let (s1, _) ← Put freshDict 5 7
      let s2 ← Clear s1
      some (s2.appendCount, s2.freeCount, s2.freeSize, Size s2)) =
      some (1, 0, 0, 2) ∧ (2 : Int) ≠ 0 := by
  constructor <;> decide

/-- Claim C6 (code bug): inserting the 31 pairwise-distinct keys 0..30 with
the identity hasher forces the bucket array to double on the final `Put`,
and that `Put` then files key 30 under the bucket index computed against
the *old* bucket count (30 mod 16 = 14) instead of 30 mod 32 = 30 — so
`TryGet 30` misses and returns `None` instead of the inserted value 30. -/
theorem roundtrip_fails_after_bucket_growth :
    ((growthPairs.map Prod.fst).Nodup ∧ (30, 30) ∈ growthPairs) ∧
    (do
      let s ← PutSeq freshDict growthPairs
      TryGet s 30) = some none := by
  refine ⟨⟨?_, ?_⟩, ?_⟩ <;> decide

/-- Claim C7 (code bug): running `dupChainPairs` leaves two live entries
for key 30 in the same chain (a consequence of the stale bucket index used
by the growing `Put`).  `Remove 30` then succeeds — returning `Some 99`,
the value of the copy at the chain head — yet `Contains 30` is still
`true` afterwards, contradicting the claim that a successful `Remove`
leaves `Contains` false. -/
theorem remove_leaves_key_still_contained :
    (do
      let s ← PutSeq freshDict dupChainPairs
      let (r, s') ← Remove s 30
      let c ← Contains s' 30
      some (r, c)) = some (some 99, true) := by decide

/-- Claim C8 (code bug): in the run of `dupKeyPairs` only 31 distinct keys
are ever `Put` and none is removed, yet a full fresh iteration yields 32
pairs, because the growth bug left a stale copy of key 30 alive alongside
the re-inserted one.  This contradicts the claimed count equation
(items yielded = distinct keys ever `Put` minus those removed). -/
theorem iteration_count_exceeds_distinct_keys :
    (do
      let s ← PutSeq freshDict dupKeyPairs
      let l ← iterList s
      some l.length) = some 32 ∧
    (dupKeyPairs.map Prod.fst).dedup.length = 31 := by
  constructor <;> decide

/-- Claim C10 (counterexample): the claim asserts that *every* key with a
negative hasher result yields a negative bucket index and a panic.  Key
`-16` under the identity `NumberHasher` has a negative hash, but
`-16 mod 16 = 0` under Go's truncated `%`, so `TryGet` indexes bucket 0 and
returns a normal `None` result — no panic occurs. -/
theorem negative_multiple_hash_no_panic :
    NumberHasher (-16) < 0 ∧ TryGet freshDict (-16) = some none := by
  constructor <;> decide

end GoCollections
